import Mathlib

/-!
# Verification of `scripts/extract_training_data.py`

Shallow embedding of the conversation-extraction pipeline
(`ConversationExtractor`) and proofs of the specification claims.

Modelling conventions:
* A JSONL record (`msg` in the source) is a `RawRecord` structure.  The keys
  the source indexes directly (`msg['uuid']`, `msg['type']`) are mandatory
  fields; keys read with `dict.get` are `Option` fields, and `.get(k, d)`
  becomes `Option.getD`.
* A Python value that may be a string or a dict/list is an inductive with one
  constructor per shape (`MsgPayload`, `ContentVal`).  Content blocks are
  dict-shaped (`Block`) with every key optional; the source's
  `isinstance(part, dict)` guard in the user branch is represented by all
  parts being dict-shaped in this embedding.
* A Python exception (e.g. `AttributeError` from calling `.get` on a string)
  is `Except.error`; a normal return is `Except.ok`.  `return None` inside
  `extract_content` is `Except.ok none`.
* Python string operations are modelled structurally on the character list
  of a Lean string, so that they evaluate in the kernel: `len(s.split())` is
  `pyWordCount` (maximal non-whitespace runs), `sep.join` is `pyJoin`,
  `s.lower()` is `pyLower` (simple character-wise case mapping), the
  truthiness of `s.strip()` is `pyStripTruthy` (some non-whitespace
  character), and `x in s` is `strContains`.  `len` on a string counts
  characters, as in Python.
* The source's unbounded `while current:` loop is modelled with an explicit
  fuel parameter; every theorem about the walk is stated for all fuel values,
  so it covers the loop whenever the loop terminates.
-/

set_option autoImplicit false

namespace Secular

/-- One content block of a `message.content` list: a dict with the optional
keys `type`, `text` and `name` read by the source.  The `input` key of a
`tool_use` block is read into a dead local variable and never rendered, so it
is not modelled. -/
structure Block where
  btype : Option String
  text  : Option String
  name  : Option String
deriving DecidableEq, Repr

/-- The value of the `content` key inside a `message` dict: either a plain
string or a list of blocks. -/
inductive ContentVal where
  | cstr (s : String)
  | clist (blocks : List Block)
deriving DecidableEq, Repr

/-- The value of the `message` key of a record: either a plain string or a
dict whose `content` key is optional. -/
inductive MsgPayload where
  | mstr (s : String)
  | mdict (content : Option ContentVal)
deriving DecidableEq, Repr

/-- One JSONL record.  `uuid` and `type` are indexed directly by the source
(`msg['uuid']`, `msg['type']`) and are mandatory; the remaining keys are read
with `dict.get` and are optional (`none` = key absent). -/
structure RawRecord where
  uuid       : String
  rtype      : String
  parentUuid : Option String
  sessionId  : Option String
  timestamp  : Option String
  message    : Option MsgPayload
deriving DecidableEq, Repr

/-- One turn appended to a conversation by `reconstruct_conversations`
(the dict built at lines 98-103 of the source). -/
structure ConversationTurn where
  role      : String
  content   : String
  timestamp : String
  uuid      : String
deriving DecidableEq, Repr

/-- Test whether the char list `p` is a prefix of `l`. -/
def isPrefixL : List Char → List Char → Bool
  | [], _ => true
  | _ :: _, [] => false
  | a :: as, b :: bs => a == b && isPrefixL as bs

/-- Test whether the char list `pat` occurs contiguously in `hay`. -/
def containsAux : List Char → List Char → Bool
  | [], pat => pat.isEmpty
  | hay@(_ :: t), pat => isPrefixL pat hay || containsAux t pat

/-- Python's `pat in s` substring test. -/
def strContains (s pat : String) : Bool :=
  containsAux s.data pat.data

/-- Word counter for `len(s.split())`: scans the characters with an
"inside a word" flag and counts the maximal non-whitespace runs. -/
def pyWordCountAux : List Char → Bool → Nat
  | [], _ => 0
  | c :: rest, inWord =>
    if c.isWhitespace then pyWordCountAux rest false
    else (if inWord then 0 else 1) + pyWordCountAux rest true

/-- Python's `len(s.split())`: number of maximal non-whitespace chunks. -/
def pyWordCount (s : String) : Nat :=
  pyWordCountAux s.data false

/-- Python's `sep.join(l)`. -/
def pyJoin (sep : String) : List String → String
  | [] => ""
  | [s] => s
  | s :: rest => s ++ sep ++ pyJoin sep rest

/-- Python's `s.lower()` (simple character-wise case mapping). -/
def pyLower (s : String) : String :=
  ⟨s.data.map Char.toLower⟩

/-- Truthiness of Python's `s.strip()`: true iff `s` has a non-whitespace
character. -/
def pyStripTruthy (s : String) : Bool :=
  s.data.any fun c => !c.isWhitespace

/-- Embedding of `extract_content` (source lines 35-73).  `Except.error` marks the inputs
on which the Python function raises (calling `.get` on a string, or iterating
a non-empty string where a block list is expected); `Except.ok none` is the
source's `return None`. -/
def extract_content (msg : RawRecord) : Except String (Option String) :=
  if msg.rtype = "user" then
    -- content = msg.get('message', {}); absent key gives the empty dict.
    match msg.message with
    | some (MsgPayload.mstr s) => Except.ok (some s)
    | some (MsgPayload.mdict c) =>
      match c.getD (ContentVal.clist []) with
      | ContentVal.cstr s => Except.ok (some s)
      | ContentVal.clist parts =>
        let texts := parts.filterMap fun part =>
          if part.btype == some "text" then some (part.text.getD "") else none
        if texts.isEmpty then Except.ok none
        else Except.ok (some (pyJoin "\n" texts))
    | none =>
      -- {} is a dict, its 'content' key is absent: zero text blocks.
      Except.ok none
  else if msg.rtype = "assistant" then
    match msg.message with
    | some (MsgPayload.mstr _) =>
      Except.error "AttributeError: str object has no attribute get"
    | some (MsgPayload.mdict (some (ContentVal.cstr s))) =>
      -- Iterating a string yields characters; block.get raises on the first
      -- character, so only the empty string survives the loop.
      if s = "" then Except.ok none
      else Except.error "AttributeError: str object has no attribute get"
    | some (MsgPayload.mdict (some (ContentVal.clist blocks))) =>
      let texts := blocks.filterMap fun block =>
        if block.btype == some "text" then some (block.text.getD "") else none
      let tool_uses := blocks.filterMap fun block =>
        if block.btype == some "text" then none
        else if block.btype == some "tool_use" then
          some ("[TOOL: " ++ block.name.getD "" ++ "]")
        else none
      let response := pyJoin "\n" texts
      let response :=
        if tool_uses.isEmpty then response
        else response ++ "\n" ++ pyJoin "\n" tool_uses
      if pyStripTruthy response then Except.ok (some response) else Except.ok none
    | some (MsgPayload.mdict none) => Except.ok none
    | none => Except.ok none
  else
    Except.ok none

/-- The turn dict appended at source lines 98-103, given the current record
and its (truthy) extracted content. -/
def mkTurn (current : RawRecord) (content : String) : ConversationTurn :=
  { role := if current.rtype = "user" then "user" else "assistant"
    content := content
    timestamp := current.timestamp.getD ""
    uuid := current.uuid }

/-- The child search of source lines 106-110: the first record of the session
whose `parentUuid` equals the current record's `uuid`. -/
def nextMsg (messages : List RawRecord) (current : RawRecord) : Option RawRecord :=
  messages.find? fun m => m.parentUuid == some current.uuid

/-- Iterate `current = next_msg` for `k` steps starting from an optional current
record (`none` = the loop has exited). -/
def stepN (messages : List RawRecord) : Nat → Option RawRecord → Option RawRecord
  | 0, c => c
  | k + 1, c => stepN messages k (c.bind (nextMsg messages))

/-- The sequence of records visited by the `while current:` loop of source
lines 95-111, truncated at `fuel` steps. -/
def walkRecords (messages : List RawRecord) : Nat → Option RawRecord → List RawRecord
  | 0, _ => []
  | _ + 1, none => []
  | fuel + 1, some current =>
    current :: walkRecords messages fuel (nextMsg messages current)

/-- The turns accumulated by the loop body of source lines 95-111 for a given
visited-record sequence: extract each record's content, keep a turn only when
the content is truthy (`some` and non-empty), propagate any exception. -/
def turnsOfRecords : List RawRecord → Except String (List ConversationTurn)
  | [] => Except.ok []
  | r :: rest =>
    match extract_content r with
    | Except.error e => Except.error e
    | Except.ok content =>
      match turnsOfRecords rest with
      | Except.error e => Except.error e
      | Except.ok tl =>
        match content with
        | some c => if c = "" then Except.ok tl else Except.ok (mkTurn r c :: tl)
        | none => Except.ok tl

/-- The `while current:` loop of source lines 95-111 (one root's walk),
truncated at `fuel` steps: extract the current record's content, append a
turn when it is truthy, move to the first child. -/
def walkTurns (messages : List RawRecord) : Nat → Option RawRecord →
    Except String (List ConversationTurn)
  | 0, _ => Except.ok []
  | _ + 1, none => Except.ok []
  | fuel + 1, some current =>
    match extract_content current with
    | Except.error e => Except.error e
    | Except.ok content =>
      match walkTurns messages fuel (nextMsg messages current) with
      | Except.error e => Except.error e
      | Except.ok rest =>
        match content with
        | some c =>
          if c = "" then Except.ok rest else Except.ok (mkTurn current c :: rest)
        | none => Except.ok rest

/-- The root test of source lines 86-88: `if not parent or parent not in
msg_map`.  Python truthiness makes both an absent `parentUuid` and an empty
string count as "no parent". -/
def isRoot (m : RawRecord) (messages : List RawRecord) : Bool :=
  match m.parentUuid with
  | none => true
  | some p => p == "" || !(messages.any fun r => r.uuid == p)

/-- The `roots` list of source lines 84-88, in session enumeration order. -/
def roots (messages : List RawRecord) : List RawRecord :=
  messages.filter fun m => isRoot m messages

/-- One iteration of the per-root loop of source lines 91-114: walk the chain
from `root`, then keep the conversation only when it has at least `min_turns`
turns. -/
def processRoot (min_turns fuel : Nat) (messages : List RawRecord)
    (root : RawRecord) : Except String (List (List ConversationTurn)) :=
  match walkTurns messages fuel (some root) with
  | Except.error e => Except.error e
  | Except.ok conversation =>
    if min_turns ≤ conversation.length then Except.ok [conversation]
    else Except.ok []

/-- The per-root loop of source lines 91-114 over a list of roots, appending
kept conversations in root order. -/
def walkAllRoots (min_turns fuel : Nat) (messages : List RawRecord) :
    List RawRecord → Except String (List (List ConversationTurn))
  | [] => Except.ok []
  | r :: rs =>
    match processRoot min_turns fuel messages r with
    | Except.error e => Except.error e
    | Except.ok kept =>
      match walkAllRoots min_turns fuel messages rs with
      | Except.error e => Except.error e
      | Except.ok rest => Except.ok (kept ++ rest)

/-- One session's contribution to `reconstruct_conversations`. -/
def sessionConversations (min_turns fuel : Nat) (messages : List RawRecord) :
    Except String (List (List ConversationTurn)) :=
  walkAllRoots min_turns fuel messages (roots messages)

/-- Embedding of `reconstruct_conversations` (source lines 75-116) over the session
grouping, in session insertion order. -/
def reconstruct_conversations (min_turns fuel : Nat) :
    List (String × List RawRecord) → Except String (List (List ConversationTurn))
  | [] => Except.ok []
  | (_, messages) :: rest =>
    match sessionConversations min_turns fuel messages with
    | Except.error e => Except.error e
    | Except.ok cs =>
      match reconstruct_conversations min_turns fuel rest with
      | Except.error e => Except.error e
      | Except.ok more => Except.ok (cs ++ more)

/-- The `total_tokens` count of source line 124: whitespace-split word count summed
over all turns. -/
def total_tokens (conv : List ConversationTurn) : Nat :=
  (conv.map fun m => pyWordCount m.content).sum

/-- The `has_tools` test of source line 129: some assistant turn contains the literal
substring `"[TOOL:"`. -/
def has_tools (conv : List ConversationTurn) : Bool :=
  conv.any fun m => m.role == "assistant" && strContains m.content "[TOOL:"

/-- The keyword list of source lines 132-135. -/
def reasoning_keywords : List String :=
  ["let me", "first", "then", "next", "because", "however",
   "consider", "alternatively", "analysis", "approach"]

/-- The `has_reasoning` test of source lines 130-137: some assistant turn is longer
than 200 characters and its lowercased content contains a keyword. -/
def has_reasoning (conv : List ConversationTurn) : Bool :=
  conv.any fun m =>
    m.role == "assistant" &&
      (decide (200 < m.content.length) &&
        reasoning_keywords.any fun keyword =>
          strContains (pyLower m.content) keyword)

/-- Embedding of `filter_quality` (source lines 118-142): the accumulation loop with the
word-count `continue` and the `has_tools or has_reasoning` test. -/
def filter_quality (min_tokens : Nat) :
    List (List ConversationTurn) → List (List ConversationTurn)
  | [] => []
  | conv :: rest =>
    if total_tokens conv < min_tokens then filter_quality min_tokens rest
    else if has_tools conv || has_reasoning conv then
      conv :: filter_quality min_tokens rest
    else filter_quality min_tokens rest

/-- Embedding of `format_for_training` (source lines 144-161): strip each turn to its
`{role, content}` pair. -/
def format_for_training (conversations : List (List ConversationTurn)) :
    List (List (String × String)) :=
  conversations.map fun conv => conv.map fun m => (m.role, m.content)

/-- One line of the input file as seen by `load_raw_data`: blank (skipped),
a decodable record, or a line on which `json.loads` raises. -/
inductive InputLine where
  | blank
  | record (r : RawRecord)
  | malformed (raw : String)
deriving DecidableEq, Repr

/-- Embedding of `self.sessions[session_id].append(msg)` on an insertion-ordered grouping:
append to the existing bucket, or create a new bucket at the end. -/
def addToSession (sessions : List (String × List RawRecord)) (sid : String)
    (r : RawRecord) : List (String × List RawRecord) :=
  match sessions with
  | [] => [(sid, [r])]
  | (k, rs) :: rest =>
    if k = sid then (k, rs ++ [r]) :: rest
    else (k, rs) :: addToSession rest sid r

/-- The line loop of `load_raw_data` (source lines 27-31) with the grouping
accumulated so far; a malformed line raises and aborts the whole load. -/
def loadLines (acc : List (String × List RawRecord)) :
    List InputLine → Except String (List (String × List RawRecord))
  | [] => Except.ok acc
  | InputLine.blank :: rest => loadLines acc rest
  | InputLine.malformed raw :: _ =>
    Except.error ("json.decoder.JSONDecodeError: " ++ raw)
  | InputLine.record r :: rest =>
    loadLines (addToSession acc (r.sessionId.getD "unknown") r) rest

/-- Embedding of `load_raw_data` (source lines 23-33): group records by session id,
defaulting to the `"unknown"` bucket. -/
def load_raw_data (lines : List InputLine) :
    Except String (List (String × List RawRecord)) :=
  loadLines [] lines

/-- The `main` pipeline (source lines 198-212): load, reconstruct, filter,
format.  Any loader exception propagates and no output is produced. -/
def runPipeline (min_turns min_tokens fuel : Nat) (lines : List InputLine) :
    Except String (List (List (String × String))) :=
  match load_raw_data lines with
  | Except.error e => Except.error e
  | Except.ok sessions =>
    match reconstruct_conversations min_turns fuel sessions with
    | Except.error e => Except.error e
    | Except.ok conversations =>
      Except.ok (format_for_training (filter_quality min_tokens conversations))

/-! ## Quality filter lemmas (claims C1, C8) -/

/-- The accumulation loop of `filter_quality` is the filter by the combined
accept condition. -/
theorem filter_quality_eq_filter (min_tokens : Nat)
    (convs : List (List ConversationTurn)) :
    filter_quality min_tokens convs =
      convs.filter fun c =>
        decide (min_tokens ≤ total_tokens c) && (has_tools c || has_reasoning c) := by
  induction convs with
  | nil => rfl
  | cons conv rest ih =>
    by_cases h : total_tokens conv < min_tokens
    · have h2 : ¬ min_tokens ≤ total_tokens conv := by omega
      simp [filter_quality, h, h2, ih, List.filter]
    · have h2 : min_tokens ≤ total_tokens conv := by omega
      by_cases ht : (has_tools conv || has_reasoning conv) = true
      · simp [filter_quality, h, h2, ht, ih, List.filter]
      · simp [filter_quality, h, h2, ht, ih, List.filter]

theorem has_tools_iff (conv : List ConversationTurn) :
    has_tools conv = true ↔
      ∃ t ∈ conv, t.role = "assistant" ∧ strContains t.content "[TOOL:" = true := by
  simp [has_tools, List.any_eq_true, Bool.and_eq_true, beq_iff_eq, and_assoc]

theorem has_reasoning_iff (conv : List ConversationTurn) :
    has_reasoning conv = true ↔
      ∃ t ∈ conv, t.role = "assistant" ∧ 200 < t.content.length ∧
        ∃ keyword ∈ reasoning_keywords,
          strContains (pyLower t.content) keyword = true := by
  simp [has_reasoning, List.any_eq_true, Bool.and_eq_true, beq_iff_eq,
    decide_eq_true_iff, and_assoc]

/-- C1: the Quality Filter accepts a conversation iff its total
whitespace-split word count is at least `min_tokens` and either some
assistant turn contains the literal substring `"[TOOL:"`, or some assistant
turn is longer than 200 characters and contains (case-insensitively) one of
the fixed reasoning keywords. -/
theorem filter_quality_accept_iff (min_tokens : Nat)
    (convs : List (List ConversationTurn)) (conv : List ConversationTurn) :
    conv ∈ filter_quality min_tokens convs ↔
      conv ∈ convs ∧ min_tokens ≤ total_tokens conv ∧
        ((∃ t ∈ conv, t.role = "assistant" ∧ strContains t.content "[TOOL:" = true) ∨
         (∃ t ∈ conv, t.role = "assistant" ∧ 200 < t.content.length ∧
            ∃ keyword ∈ reasoning_keywords,
              strContains (pyLower t.content) keyword = true)) := by
  rw [filter_quality_eq_filter, List.mem_filter]
  rw [Bool.and_eq_true, Bool.or_eq_true, decide_eq_true_iff,
    has_tools_iff, has_reasoning_iff]

/-- Filtering twice by the same boolean predicate is the same as once. -/
theorem filter_idem {α : Type} (p : α → Bool) (l : List α) :
    (l.filter p).filter p = l.filter p := by
  induction l with
  | nil => rfl
  | cons a t ih =>
    by_cases h : p a = true
    · simp [List.filter, h, ih]
    · simp [List.filter, h, ih]

/-- C8: the Quality Filter is pure and idempotent, and its output is a
subsequence of its input with no element modified. -/
theorem filter_quality_idempotent_sublist (min_tokens : Nat)
    (convs : List (List ConversationTurn)) :
    filter_quality min_tokens (filter_quality min_tokens convs) =
        filter_quality min_tokens convs ∧
      (filter_quality min_tokens convs).Sublist convs := by
  constructor
  · rw [filter_quality_eq_filter min_tokens convs,
      filter_quality_eq_filter min_tokens (convs.filter _), filter_idem]
  · rw [filter_quality_eq_filter]
    exact List.filter_sublist convs

/-! ## Content extraction (claims C2, C9) -/

instance {e a : Type} [DecidableEq e] [DecidableEq a] : DecidableEq (Except e a) := fun x y =>
  match x, y with
  | Except.error e1, Except.error e2 =>
    if h : e1 = e2 then isTrue (by rw [h])
    else isFalse (by intro hh; cases hh; exact h rfl)
  | Except.ok v1, Except.ok v2 =>
    if h : v1 = v2 then isTrue (by rw [h])
    else isFalse (by intro hh; cases hh; exact h rfl)
  | Except.error _, Except.ok _ => isFalse (by intro hh; cases hh)
  | Except.ok _, Except.error _ => isFalse (by intro hh; cases hh)

/-- An assistant record whose message content is exactly one `tool_use` block
named `"Read"` and no text blocks. -/
def toolOnlyRecord : RawRecord :=
  { uuid := "a1", rtype := "assistant", parentUuid := none, sessionId := none,
    timestamp := none,
    message := some (MsgPayload.mdict (some (ContentVal.clist
      [{ btype := some "tool_use", text := none, name := some "Read" }]))) }

/-- C2 counterexample: on the tool-only assistant record the source returns
`"\n[TOOL: Read]"` — the empty joined text is still prefixed, with a newline,
to the tool markers — not the claimed `"[TOOL: Read]"`. -/
theorem extract_tool_only_cex :
    extract_content toolOnlyRecord = Except.ok (some "\n[TOOL: Read]") ∧
      extract_content toolOnlyRecord ≠ Except.ok (some "[TOOL: Read]") := by
  exact ⟨by decide, by decide⟩

/-- C2 amended: every assistant record whose message content is exactly one
`tool_use` block named `"Read"` and no text blocks extracts to
`"\n[TOOL: Read]"`, the joined tool markers preceded by a newline. -/
theorem extract_tool_only (u : String) (pid sid ts : Option String)
    (t : Option String) :
    extract_content
      { uuid := u, rtype := "assistant", parentUuid := pid, sessionId := sid,
        timestamp := ts,
        message := some (MsgPayload.mdict (some (ContentVal.clist
          [{ btype := some "tool_use", text := t, name := some "Read" }]))) }
      = Except.ok (some "\n[TOOL: Read]") := rfl

/-- The record shapes on which every field read by `extract_content` goes
through `dict.get`: the `message` key absent, or a dict whose `content` key
is absent or holds a block list (each block's `type`, `text` and `name`
optional).  Outside these shapes the source can hit `.get` on a string. -/
def dictShaped (r : RawRecord) : Bool :=
  match r.message with
  | none => true
  | some (MsgPayload.mdict none) => true
  | some (MsgPayload.mdict (some (ContentVal.clist _))) => true
  | _ => false

theorem exists_ok_of_ite (c : Prop) [Decidable c] (x y : Option String) :
    ∃ v, (if c then (Except.ok x : Except String (Option String))
      else Except.ok y) = Except.ok v := by
  split
  · exact ⟨x, rfl⟩
  · exact ⟨y, rfl⟩

/-- C9: content extraction never raises on records missing optional fields:
on every dict-shaped record it returns a result; the result never depends on
`parentUuid`, `sessionId` or `timestamp`; and a record whose type is neither
`user` nor `assistant` yields the no-content signal rather than a failure. -/
theorem extract_content_defensive (r : RawRecord) (h : dictShaped r = true) :
    (∃ v, extract_content r = Except.ok v) ∧
    extract_content
        { r with parentUuid := none, sessionId := none, timestamp := none }
      = extract_content r ∧
    (r.rtype ≠ "user" → r.rtype ≠ "assistant" →
      extract_content r = Except.ok none) := by
  obtain ⟨u, ty, p, s, ts, m⟩ := r
  refine ⟨?_, by rfl, ?_⟩
  · by_cases hu : ty = "user"
    · cases m with
      | none => exact ⟨none, by simp [extract_content, hu]⟩
      | some payload =>
        cases payload with
        | mstr str => simp [dictShaped] at h
        | mdict c =>
          cases c with
          | none => exact ⟨none, by simp [extract_content, hu]⟩
          | some cv =>
            cases cv with
            | cstr str => simp [dictShaped] at h
            | clist blocks =>
              unfold extract_content
              simp only [if_pos hu]
              exact exists_ok_of_ite _ _ _
    · by_cases ha : ty = "assistant"
      · cases m with
        | none => exact ⟨none, by simp [extract_content, hu, ha]⟩
        | some payload =>
          cases payload with
          | mstr str => simp [dictShaped] at h
          | mdict c =>
            cases c with
            | none => exact ⟨none, by simp [extract_content, hu, ha]⟩
            | some cv =>
              cases cv with
              | cstr str => simp [dictShaped] at h
              | clist blocks =>
                unfold extract_content
                simp only [if_neg hu, if_pos ha]
                exact exists_ok_of_ite _ _ _
      · exact ⟨none, by simp [extract_content, hu, ha]⟩
  · intro h1 h2
    simp [extract_content, h1, h2]

/-- A record of an ignored type, with every optional field absent. -/
def otherTypeRecord : RawRecord :=
  { uuid := "w", rtype := "system", parentUuid := none, sessionId := none,
    timestamp := none, message := none }

theorem extract_content_defensive_witness :
    dictShaped otherTypeRecord = true ∧
      extract_content otherTypeRecord = Except.ok none :=
  ⟨by decide,
   (extract_content_defensive otherTypeRecord (by decide)).2.2
     (by decide) (by decide)⟩

/-! ## Root identification (claim C4) -/

/-- A record with the empty string as uuid. -/
def emptyUuidRecord : RawRecord :=
  { uuid := "", rtype := "user", parentUuid := none, sessionId := none,
    timestamp := none, message := some (MsgPayload.mstr "hi") }

/-- A record whose `parentUuid` is the empty string. -/
def emptyParentRecord : RawRecord :=
  { uuid := "x", rtype := "user", parentUuid := some "", sessionId := none,
    timestamp := none, message := some (MsgPayload.mstr "yo") }

/-- C4 counterexample: `emptyParentRecord` has a `parentUuid` that is present
and equals the uuid of `emptyUuidRecord` in the same set, yet the source
classifies it as a root, because Python's `if not parent` treats the empty
string as "no parent". -/
theorem isRoot_iff_cex :
    isRoot emptyParentRecord [emptyUuidRecord, emptyParentRecord] = true ∧
      ¬ (emptyParentRecord.parentUuid = none ∨
          ∀ r ∈ [emptyUuidRecord, emptyParentRecord],
            some r.uuid ≠ emptyParentRecord.parentUuid) := by
  exact ⟨by decide, by decide⟩

/-- C4 amended: a record is classified a root iff its `parentUuid` is absent,
or is the empty string, or does not equal the uuid of any record in the
session's set.  In particular a record with `parentUuid` absent is always a
root. -/
theorem isRoot_iff (m : RawRecord) (messages : List RawRecord) :
    isRoot m messages = true ↔
      (m.parentUuid = none ∨ m.parentUuid = some "" ∨
        ∃ p, m.parentUuid = some p ∧ ∀ r ∈ messages, r.uuid ≠ p) := by
  cases hm : m.parentUuid with
  | none => simp [isRoot, hm]
  | some p => simp [isRoot, hm]

/-! ## Fail-fast loading (claim C7) -/

/-- Detect a line on which `json.loads` raises. -/
def isMalformedLine : InputLine → Bool
  | InputLine.malformed _ => true
  | _ => false

theorem loadLines_error_of_malformed (lines : List InputLine)
    (h : lines.any isMalformedLine = true) :
    ∀ acc, ∃ e, loadLines acc lines = Except.error e := by
  induction lines with
  | nil => simp [List.any_nil] at h
  | cons l rest ih =>
    intro acc
    cases l with
    | blank =>
      simp only [List.any_cons, isMalformedLine, Bool.false_or] at h
      exact ih h acc
    | record r =>
      simp only [List.any_cons, isMalformedLine, Bool.false_or] at h
      exact ih h _
    | malformed raw =>
      exact ⟨"json.decoder.JSONDecodeError: " ++ raw, rfl⟩

theorem loadLines_ok_of_no_malformed (lines : List InputLine)
    (h : lines.any isMalformedLine = false) :
    ∀ acc, ∃ sessions, loadLines acc lines = Except.ok sessions := by
  induction lines with
  | nil => exact fun acc => ⟨acc, rfl⟩
  | cons l rest ih =>
    intro acc
    cases l with
    | blank =>
      simp only [List.any_cons, isMalformedLine, Bool.false_or] at h
      exact ih h acc
    | record r =>
      simp only [List.any_cons, isMalformedLine, Bool.false_or] at h
      exact ih h _
    | malformed raw => simp [List.any_cons, isMalformedLine] at h

/-- C7: if any non-blank input line fails to decode, the load raises and the
whole run aborts with that error — no output is produced; if no line is
malformed (blank lines included), loading succeeds. -/
theorem load_fail_fast (min_turns min_tokens fuel : Nat)
    (lines : List InputLine) :
    (lines.any isMalformedLine = true →
      ∃ e, load_raw_data lines = Except.error e ∧
        runPipeline min_turns min_tokens fuel lines = Except.error e) ∧
    (lines.any isMalformedLine = false →
      ∃ sessions, load_raw_data lines = Except.ok sessions) := by
  constructor
  · intro h
    obtain ⟨e, he⟩ := loadLines_error_of_malformed lines h []
    refine ⟨e, he, ?_⟩
    unfold runPipeline
    rw [show load_raw_data lines = Except.error e from he]
  · intro h
    exact loadLines_ok_of_no_malformed lines h []

/-- A line list whose second line is malformed. -/
def badLines : List InputLine :=
  [InputLine.record emptyUuidRecord, InputLine.malformed "not json"]

/-- A line list with a blank line and no malformed line. -/
def goodLines : List InputLine :=
  [InputLine.blank, InputLine.record emptyUuidRecord]

theorem load_fail_fast_witness :
    (∃ e, load_raw_data badLines = Except.error e ∧
      runPipeline 3 50 5 badLines = Except.error e) ∧
    (∃ sessions, load_raw_data goodLines = Except.ok sessions) :=
  ⟨(load_fail_fast 3 50 5 badLines).1 (by decide),
   (load_fail_fast 3 50 5 goodLines).2 (by decide)⟩

/-! ## Min-turns gate (claim C5) -/

/-- C5: a completed root-to-leaf walk is kept iff its number of accepted
turns is at least `min_turns`; a walk of exactly `min_turns - 1` turns is
discarded entirely and one of exactly `min_turns` turns is retained. -/
theorem min_turns_gate (min_turns fuel : Nat) (messages : List RawRecord)
    (root : RawRecord) (conversation : List ConversationTurn)
    (h : walkTurns messages fuel (some root) = Except.ok conversation) :
    processRoot min_turns fuel messages root =
        Except.ok (if min_turns ≤ conversation.length then [conversation]
          else []) ∧
    (conversation.length + 1 = min_turns →
      processRoot min_turns fuel messages root = Except.ok []) ∧
    (conversation.length = min_turns →
      processRoot min_turns fuel messages root = Except.ok [conversation]) := by
  have hp : processRoot min_turns fuel messages root =
      if min_turns ≤ conversation.length then Except.ok [conversation]
      else Except.ok [] := by
    unfold processRoot
    rw [h]
  refine ⟨?_, ?_, ?_⟩
  · rw [hp]
    split <;> rfl
  · intro hlen
    have hnot : ¬ min_turns ≤ conversation.length := by omega
    rw [hp, if_neg hnot]
  · intro hlen
    have hle : min_turns ≤ conversation.length := by omega
    rw [hp, if_pos hle]

/-- A one-record session: a root user record with content `"hi"`. -/
def gateRecord : RawRecord :=
  { uuid := "g1", rtype := "user", parentUuid := none, sessionId := some "s",
    timestamp := some "t0", message := some (MsgPayload.mstr "hi") }

/-- The single turn produced by walking `gateRecord`. -/
def gateTurn : ConversationTurn :=
  { role := "user", content := "hi", timestamp := "t0", uuid := "g1" }

theorem min_turns_gate_witness :
    processRoot 1 1 [gateRecord] gateRecord = Except.ok [[gateTurn]] ∧
      processRoot 2 1 [gateRecord] gateRecord = Except.ok [] :=
  ⟨(min_turns_gate 1 1 [gateRecord] gateRecord [gateTurn] (by decide)).2.2
     (by decide),
   (min_turns_gate 2 1 [gateRecord] gateRecord [gateTurn] (by decide)).2.1
     (by decide)⟩

/-! ## Non-empty turns and walk continuation (claim C6) -/

/-- The loop body of the walk splits into the visited-record sequence and the
per-record turn extraction: dropping a no-content turn does not stop the
walk, because the child search depends only on the visited records. -/
theorem walkTurns_eq_turnsOfRecords (messages : List RawRecord) :
    ∀ (fuel : Nat) (c : Option RawRecord),
      walkTurns messages fuel c = turnsOfRecords (walkRecords messages fuel c) := by
  intro fuel
  induction fuel with
  | zero => intro c; cases c <;> rfl
  | succ n ih =>
    intro c
    cases c with
    | none => rfl
    | some current =>
      simp only [walkTurns, walkRecords, turnsOfRecords, ih]

theorem turnsOfRecords_content_ne (rs : List RawRecord) :
    ∀ (conv : List ConversationTurn), turnsOfRecords rs = Except.ok conv →
      ∀ t ∈ conv, t.content ≠ "" := by
  induction rs with
  | nil =>
    intro conv h
    cases h
    simp
  | cons r rest ih =>
    intro conv h
    cases he : extract_content r with
    | error e =>
      simp only [turnsOfRecords, he] at h
      exact Except.noConfusion h
    | ok content =>
      cases hrest : turnsOfRecords rest with
      | error e =>
        simp only [turnsOfRecords, he, hrest] at h
        exact Except.noConfusion h
      | ok tl =>
        cases content with
        | none =>
          simp only [turnsOfRecords, he, hrest] at h
          injection h with h2
          subst h2
          exact ih tl hrest
        | some c =>
          by_cases hc : c = ""
          · simp only [turnsOfRecords, he, hrest, hc, if_pos] at h
            injection h with h2
            subst h2
            exact ih tl hrest
          · simp only [turnsOfRecords, he, hrest, if_neg hc] at h
            injection h with h2
            subst h2
            intro t ht
            rcases List.mem_cons.mp ht with h1 | h1
            · rw [h1]
              exact hc
            · exact ih tl hrest t h1

theorem processRoot_content_ne (min_turns fuel : Nat)
    (messages : List RawRecord) (root : RawRecord)
    (l : List (List ConversationTurn))
    (h : processRoot min_turns fuel messages root = Except.ok l) :
    ∀ conv ∈ l, ∀ t ∈ conv, t.content ≠ "" := by
  unfold processRoot at h
  cases hw : walkTurns messages fuel (some root) with
  | error e =>
    simp only [hw] at h
    exact Except.noConfusion h
  | ok conversation =>
    simp only [hw] at h
    have hconv : ∀ t ∈ conversation, t.content ≠ "" := by
      rw [walkTurns_eq_turnsOfRecords] at hw
      exact turnsOfRecords_content_ne _ _ hw
    by_cases hc : min_turns ≤ conversation.length
    · rw [if_pos hc] at h
      injection h with h2
      subst h2
      intro conv hmem
      rw [List.mem_singleton.mp hmem]
      exact hconv
    · rw [if_neg hc] at h
      injection h with h2
      subst h2
      intro conv hmem
      cases hmem

theorem walkAllRoots_content_ne (min_turns fuel : Nat)
    (messages : List RawRecord) (rs : List RawRecord) :
    ∀ (l : List (List ConversationTurn)),
      walkAllRoots min_turns fuel messages rs = Except.ok l →
      ∀ conv ∈ l, ∀ t ∈ conv, t.content ≠ "" := by
  induction rs with
  | nil =>
    intro l h
    cases h
    intro conv hmem
    cases hmem
  | cons r rest ih =>
    intro l h
    cases hp : processRoot min_turns fuel messages r with
    | error e =>
      simp only [walkAllRoots, hp] at h
      exact Except.noConfusion h
    | ok kept =>
      cases hr : walkAllRoots min_turns fuel messages rest with
      | error e =>
        simp only [walkAllRoots, hp, hr] at h
        exact Except.noConfusion h
      | ok more =>
        simp only [walkAllRoots, hp, hr] at h
        injection h with h2
        subst h2
        intro conv hmem
        rcases List.mem_append.mp hmem with h1 | h1
        · exact processRoot_content_ne min_turns fuel messages r kept hp conv h1
        · exact ih more hr conv h1

/-- C6: every turn of every conversation produced by
`reconstruct_conversations` has non-empty content, and a visited record whose
extraction yields no content contributes no turn while the walk still
continues to its children (the visited-record sequence is independent of the
extraction results). -/
theorem reconstruct_turns_nonempty (min_turns fuel : Nat)
    (sessions : List (String × List RawRecord))
    (convs : List (List ConversationTurn))
    (h : reconstruct_conversations min_turns fuel sessions = Except.ok convs) :
    (∀ conv ∈ convs, ∀ t ∈ conv, t.content ≠ "") ∧
    (∀ (messages : List RawRecord) (c : Option RawRecord),
      walkTurns messages fuel c =
        turnsOfRecords (walkRecords messages fuel c)) := by
  refine ⟨?_, fun messages c => walkTurns_eq_turnsOfRecords messages fuel c⟩
  induction sessions generalizing convs with
  | nil =>
    cases h
    intro conv hmem
    cases hmem
  | cons sess rest ih =>
    obtain ⟨sid, messages⟩ := sess
    cases hs : sessionConversations min_turns fuel messages with
    | error e =>
      simp only [reconstruct_conversations, hs] at h
      exact Except.noConfusion h
    | ok cs =>
      cases hr : reconstruct_conversations min_turns fuel rest with
      | error e =>
        simp only [reconstruct_conversations, hs, hr] at h
        exact Except.noConfusion h
      | ok more =>
        simp only [reconstruct_conversations, hs, hr] at h
        injection h with h2
        subst h2
        intro conv hmem
        rcases List.mem_append.mp hmem with h1 | h1
        · exact walkAllRoots_content_ne min_turns fuel messages
            (roots messages) cs hs conv h1
        · exact ih more hr conv h1

/-- A three-record session whose middle record yields no content. -/
def chainUser1 : RawRecord :=
  { uuid := "1", rtype := "user", parentUuid := none, sessionId := some "s",
    timestamp := some "t1", message := some (MsgPayload.mstr "hello") }

/-- Middle record: assistant with no `message` payload, so no content. -/
def chainEmpty2 : RawRecord :=
  { uuid := "2", rtype := "assistant", parentUuid := some "1",
    sessionId := some "s", timestamp := some "t2", message := none }

def chainUser3 : RawRecord :=
  { uuid := "3", rtype := "user", parentUuid := some "2",
    sessionId := some "s", timestamp := some "t3",
    message := some (MsgPayload.mstr "thanks") }

def chainTurn1 : ConversationTurn :=
  { role := "user", content := "hello", timestamp := "t1", uuid := "1" }

def chainTurn3 : ConversationTurn :=
  { role := "user", content := "thanks", timestamp := "t3", uuid := "3" }

theorem reconstruct_turns_nonempty_witness :
    reconstruct_conversations 2 3 [("s", [chainUser1, chainEmpty2, chainUser3])]
        = Except.ok [[chainTurn1, chainTurn3]] ∧
      chainTurn1.content ≠ "" :=
  ⟨by decide,
   (reconstruct_turns_nonempty 2 3
      [("s", [chainUser1, chainEmpty2, chainUser3])]
      [[chainTurn1, chainTurn3]] (by decide)).1
     [chainTurn1, chainTurn3] (by decide) chainTurn1 (by decide)⟩

/-! ## Branch following (claim C3) -/

/-- Root record with three children below. -/
def branchRoot : RawRecord :=
  { uuid := "A", rtype := "user", parentUuid := none, sessionId := none,
    timestamp := none, message := some (MsgPayload.mstr "q") }

/-- First child of `branchRoot` in input order. -/
def branchChild0 : RawRecord :=
  { uuid := "D", rtype := "assistant", parentUuid := some "A",
    sessionId := none, timestamp := none, message := none }

/-- Second child of `branchRoot` in input order. -/
def branchChild1 : RawRecord :=
  { uuid := "B", rtype := "assistant", parentUuid := some "A",
    sessionId := none, timestamp := none, message := none }

/-- Third child of `branchRoot` in input order. -/
def branchChild2 : RawRecord :=
  { uuid := "C", rtype := "assistant", parentUuid := some "A",
    sessionId := none, timestamp := none, message := none }

/-- C3 counterexample: `branchChild1` (B) and `branchChild2` (C) are both
children of `branchRoot` (A) with B before C in input order, yet the walk
does not select B as the next record after A: an earlier sibling
(`branchChild0`) is the first match. -/
theorem branch_first_match_cex :
    branchChild1.parentUuid = some branchRoot.uuid ∧
      branchChild2.parentUuid = some branchRoot.uuid ∧
      nextMsg [branchRoot, branchChild0, branchChild1, branchChild2]
          branchRoot = some branchChild0 ∧
      branchChild0 ≠ branchChild1 ∧
      nextMsg [branchRoot, branchChild0, branchChild1, branchChild2]
          branchRoot ≠ some branchChild1 := by
  exact ⟨by decide, by decide, by decide, by decide, by decide⟩

/-- Iterating the child search one more time composes on the outside. -/
theorem stepN_succ (messages : List RawRecord) (k : Nat)
    (c : Option RawRecord) :
    stepN messages (k + 1) c = (stepN messages k c).bind (nextMsg messages) := by
  induction k generalizing c with
  | zero => rfl
  | succ n ih =>
    show stepN messages (n + 1) (c.bind (nextMsg messages)) = _
    rw [ih]
    rfl

theorem find?_first_in_front (p : RawRecord → Bool) (l1 : List RawRecord)
    (b : RawRecord) (t : List RawRecord) (hb : p b = true) :
    ∃ x, List.find? p (l1 ++ b :: t) = some x ∧ (x ∈ l1 ∨ x = b) := by
  induction l1 with
  | nil => exact ⟨b, by simp [List.find?_cons, hb], Or.inr rfl⟩
  | cons a l ih =>
    by_cases ha : p a = true
    · exact ⟨a, by simp [List.find?_cons, ha], Or.inl (by simp)⟩
    · obtain ⟨x, hx, hmem⟩ := ih
      refine ⟨x, ?_, ?_⟩
      · simpa [List.find?_cons, ha] using hx
      · rcases hmem with h | h
        · exact Or.inl (List.mem_cons_of_mem a h)
        · exact Or.inr h

theorem find?_skip_front (p : RawRecord → Bool) (l1 : List RawRecord)
    (b : RawRecord) (t : List RawRecord)
    (h1 : ∀ x ∈ l1, p x = false) (hb : p b = true) :
    List.find? p (l1 ++ b :: t) = some b := by
  induction l1 with
  | nil => simp [List.find?_cons, hb]
  | cons a l ih =>
    have ha : p a = false := h1 a (by simp)
    have hrest : ∀ x ∈ l, p x = false := fun x hx => h1 x (by simp [hx])
    simp [List.find?_cons, ha, ih hrest]

/-- C3 amended: if B and C are both children of A with B before C in input
order (and C occurs only at its listed position), then the walk from A never
visits C, and the record selected next after A is the first child in input
order — which is B precisely when no record before B is also a child of A. -/
theorem branch_first_match (messages l1 l2 l3 : List RawRecord)
    (A B C : RawRecord)
    (hsplit : messages = l1 ++ B :: (l2 ++ C :: l3))
    (hB : B.parentUuid = some A.uuid) (hC : C.parentUuid = some A.uuid)
    (hCB : C ≠ B) (hCA : C ≠ A) (hCl1 : C ∉ l1) :
    ((∀ x ∈ l1, x.parentUuid ≠ some A.uuid) → nextMsg messages A = some B) ∧
    (∀ k, stepN messages k (some A) ≠ some C) := by
  have hnever : ∀ r, nextMsg messages r ≠ some C := by
    intro r h
    have h' : List.find? (fun m => m.parentUuid == some r.uuid) messages
        = some C := h
    have hpC : (C.parentUuid == some r.uuid) = true := by
      simpa using List.find?_some h'
    have hru : some A.uuid = some (r.uuid : String) := by
      rw [← hC]
      exact eq_of_beq hpC
    have hpB : (B.parentUuid == some r.uuid) = true := by
      rw [hB, ← hru]
      exact beq_self_eq_true _
    obtain ⟨x, hx, hmem⟩ :=
      find?_first_in_front (fun m => m.parentUuid == some r.uuid) l1 B
        (l2 ++ C :: l3) hpB
    rw [nextMsg, hsplit, hx] at h
    injection h with h2
    subst h2
    rcases hmem with hm | hm
    · exact hCl1 hm
    · exact hCB hm
  refine ⟨?_, ?_⟩
  · intro hfirst
    have h1 : ∀ x ∈ l1, (x.parentUuid == some A.uuid) = false := by
      intro x hx
      have := hfirst x hx
      simpa using this
    rw [nextMsg, hsplit]
    exact find?_skip_front _ l1 B (l2 ++ C :: l3) h1
      (by rw [hB]; exact beq_self_eq_true _)
  · intro k
    induction k with
    | zero =>
      intro h
      injection h with h2
      exact hCA h2.symm
    | succ n ih =>
      rw [stepN_succ]
      cases hs : stepN messages n (some A) with
      | none => simp
      | some x =>
        simpa using hnever x


theorem branch_first_match_witness :
    nextMsg [branchRoot, branchChild1, branchChild2] branchRoot
        = some branchChild1 ∧
      stepN [branchRoot, branchChild1, branchChild2] 1 (some branchRoot)
        ≠ some branchChild2 :=
  ⟨(branch_first_match [branchRoot, branchChild1, branchChild2]
      [branchRoot] [] [] branchRoot branchChild1 branchChild2 rfl
      (by decide) (by decide) (by decide) (by decide) (by decide)).1
      (by decide),
   (branch_first_match [branchRoot, branchChild1, branchChild2]
      [branchRoot] [] [] branchRoot branchChild1 branchChild2 rfl
      (by decide) (by decide) (by decide) (by decide) (by decide)).2 1⟩


/-! ## Walk termination (claim C10) -/

/-- The `while current:` loop starting at `r` exits after finitely many
child-search steps. -/
def terminatesFrom (messages : List RawRecord) (r : RawRecord) : Prop :=
  ∃ k, stepN messages k (some r) = none

/-- A record whose `parentUuid` is the empty string: a root by Python
truthiness, yet its parent link resolves to `cycleRecord2`. -/
def cycleRecord1 : RawRecord :=
  { uuid := "r", rtype := "user", parentUuid := some "", sessionId := none,
    timestamp := none, message := some (MsgPayload.mstr "a") }

/-- A record with the empty uuid whose parent is `cycleRecord1`. -/
def cycleRecord2 : RawRecord :=
  { uuid := "", rtype := "user", parentUuid := some "r", sessionId := none,
    timestamp := none, message := some (MsgPayload.mstr "b") }

theorem cycle_alternates (k : Nat) :
    stepN [cycleRecord1, cycleRecord2] k (some cycleRecord1)
        = some cycleRecord1 ∨
      stepN [cycleRecord1, cycleRecord2] k (some cycleRecord1)
        = some cycleRecord2 := by
  induction k with
  | zero => exact Or.inl rfl
  | succ n ih =>
    rw [stepN_succ]
    rcases ih with h | h
    · rw [h]
      exact Or.inr (by decide)
    · rw [h]
      exact Or.inl (by decide)

/-- C10 counterexample: the two-record session `[cycleRecord1, cycleRecord2]`
has pairwise-distinct uuids and `cycleRecord1` is classified a root (its
parentUuid `""` is falsy), yet the walk from it alternates between the two
records forever — the source loops without terminating. -/
theorem walk_termination_cex :
    (List.map RawRecord.uuid [cycleRecord1, cycleRecord2]).Nodup ∧
      cycleRecord1 ∈ [cycleRecord1, cycleRecord2] ∧
      isRoot cycleRecord1 [cycleRecord1, cycleRecord2] = true ∧
      ¬ terminatesFrom [cycleRecord1, cycleRecord2] cycleRecord1 := by
  refine ⟨by decide, by decide, by decide, ?_⟩
  rintro ⟨k, hk⟩
  rcases cycle_alternates k with h | h <;>
    rw [hk] at h <;>
    exact Option.noConfusion h

theorem nextMsg_parent (messages : List RawRecord) (a x : RawRecord)
    (h : nextMsg messages a = some x) : x.parentUuid = some a.uuid := by
  have h' : List.find? (fun m => m.parentUuid == some a.uuid) messages
      = some x := h
  have := List.find?_some h'
  simp only [beq_iff_eq] at this
  exact this

theorem nextMsg_mem (messages : List RawRecord) (a x : RawRecord)
    (h : nextMsg messages a = some x) : x ∈ messages :=
  List.mem_of_find?_eq_some h

theorem stepN_some_mem (messages : List RawRecord) (root : RawRecord)
    (hmem : root ∈ messages) :
    ∀ (k : Nat) (x : RawRecord),
      stepN messages k (some root) = some x → x ∈ messages := by
  intro k
  induction k with
  | zero =>
    intro x h
    injection h with h2
    exact h2 ▸ hmem
  | succ n ih =>
    intro x h
    rw [stepN_succ] at h
    cases hs : stepN messages n (some root) with
    | none =>
      rw [hs] at h
      exact Option.noConfusion h
    | some a =>
      rw [hs] at h
      simp only [Option.some_bind] at h
      exact nextMsg_mem messages a x h

/-- A walk from a genuine root can never return to an already visited
record: a revisit would force the root itself to be revisited, and the
root's parent link cannot resolve inside the session (given that no uuid is
the empty string). -/
theorem stepN_no_revisit (messages : List RawRecord) (root : RawRecord)
    (hmem : root ∈ messages) (hroot : isRoot root messages = true)
    (hnodup : (messages.map RawRecord.uuid).Nodup)
    (hne : ∀ m ∈ messages, m.uuid ≠ "") :
    ∀ (d i : Nat) (x : RawRecord),
      stepN messages i (some root) = some x →
      stepN messages (i + d + 1) (some root) = some x → False := by
  intro d i
  induction i with
  | zero =>
    intro x h0 hd
    have hx : root = x := by
      injection h0 with h2
    subst hx
    rw [show 0 + d + 1 = d + 1 by omega, stepN_succ] at hd
    cases hs : stepN messages d (some root) with
    | none =>
      rw [hs] at hd
      exact Option.noConfusion hd
    | some a =>
      rw [hs] at hd
      simp only [Option.some_bind] at hd
      have hpar : root.parentUuid = some a.uuid :=
        nextMsg_parent messages a root hd
      have hamem : a ∈ messages := stepN_some_mem messages root hmem d a hs
      have hr := hroot
      unfold isRoot at hr
      rw [hpar] at hr
      simp only [Bool.or_eq_true, beq_iff_eq, Bool.not_eq_true',
        List.any_eq_false] at hr
      rcases hr with h1 | h1
      · exact hne a hamem h1
      · have := h1 a hamem
        simp at this
  | succ n ih =>
    intro x h1 h2
    rw [stepN_succ] at h1
    rw [show n + 1 + d + 1 = (n + d + 1) + 1 by omega, stepN_succ] at h2
    cases hs1 : stepN messages n (some root) with
    | none =>
      rw [hs1] at h1
      exact Option.noConfusion h1
    | some a =>
      cases hs2 : stepN messages (n + d + 1) (some root) with
      | none =>
        rw [hs2] at h2
        exact Option.noConfusion h2
      | some b =>
        rw [hs1] at h1
        rw [hs2] at h2
        simp only [Option.some_bind] at h1 h2
        have hpa := nextMsg_parent messages a x h1
        have hpb := nextMsg_parent messages b x h2
        have hab : a.uuid = b.uuid := by
          rw [hpa] at hpb
          injection hpb
        have hamem := stepN_some_mem messages root hmem n a hs1
        have hbmem := stepN_some_mem messages root hmem (n + d + 1) b hs2
        have hab2 : a = b := List.inj_on_of_nodup_map hnodup hamem hbmem hab
        subst hab2
        exact ih a hs1 hs2

theorem filterMap_length_of_all_some {f : Nat → Option RawRecord}
    (l : List Nat) (h : ∀ i ∈ l, ∃ x, f i = some x) :
    (l.filterMap f).length = l.length := by
  induction l with
  | nil => rfl
  | cons a t ih =>
    obtain ⟨x, hx⟩ := h a (by simp)
    have ht : ∀ i ∈ t, ∃ y, f i = some y := fun i hi => h i (by simp [hi])
    simp [List.filterMap_cons, hx, ih ht]

/-- C10 amended: for a session with pairwise-distinct uuids in which no
record's uuid is the empty string, every walk from a root visits each record
at most once and terminates within `messages.length` steps.  (Without the
empty-uuid exclusion the walk can revisit the root and diverge, see the
counterexample.) -/
theorem walk_terminates (messages : List RawRecord) (root : RawRecord)
    (hmem : root ∈ messages) (hroot : isRoot root messages = true)
    (hnodup : (messages.map RawRecord.uuid).Nodup)
    (hne : ∀ m ∈ messages, m.uuid ≠ "") :
    (∃ k, k ≤ messages.length ∧ stepN messages k (some root) = none) ∧
    (∀ (i j : Nat) (x : RawRecord), i < j →
      stepN messages i (some root) = some x →
      stepN messages j (some root) ≠ some x) := by
  have hinj : ∀ (i j : Nat) (x : RawRecord), i < j →
      stepN messages i (some root) = some x →
      stepN messages j (some root) = some x → False := by
    intro i j x hij hi hj
    refine stepN_no_revisit messages root hmem hroot hnodup hne
      (j - i - 1) i x hi ?_
    rw [show i + (j - i - 1) + 1 = j by omega]
    exact hj
  refine ⟨?_, fun i j x hij hi hj => hinj i j x hij hi hj⟩
  by_contra hterm
  push_neg at hterm
  have hall : ∀ i, i < messages.length + 1 →
      ∃ x, stepN messages i (some root) = some x := by
    intro i hi
    cases hs : stepN messages i (some root) with
    | none => exact absurd hs (hterm i (by omega))
    | some x => exact ⟨x, rfl⟩
  have hVlen : ((List.range (messages.length + 1)).filterMap
      (fun i => stepN messages i (some root))).length
        = messages.length + 1 := by
    have hlen := @filterMap_length_of_all_some
      (fun i => stepN messages i (some root))
      (List.range (messages.length + 1))
      (fun i hi => hall i (List.mem_range.mp hi))
    simpa using hlen
  have hVnodup : ((List.range (messages.length + 1)).filterMap
      (fun i => stepN messages i (some root))).Nodup := by
    refine (List.nodup_range (messages.length + 1)).filterMap ?_
    intro a b c hca hcb
    rw [Option.mem_def] at hca hcb
    by_contra hab
    rcases Nat.lt_or_ge a b with hlt | hge
    · exact hinj a b c hlt hca hcb
    · have hlt : b < a := by omega
      exact hinj b a c hlt hcb hca
  have hVsub : ∀ x ∈ (List.range (messages.length + 1)).filterMap
      (fun i => stepN messages i (some root)), x ∈ messages := by
    intro x hx
    obtain ⟨i, hi, hsome⟩ := List.mem_filterMap.mp hx
    exact stepN_some_mem messages root hmem i x hsome
  have h1 := List.toFinset_card_of_nodup hVnodup
  have h2 : ((List.range (messages.length + 1)).filterMap
      (fun i => stepN messages i (some root))).toFinset
        ⊆ messages.toFinset := by
    intro x hx
    rw [List.mem_toFinset] at hx ⊢
    exact hVsub x hx
  have h3 := Finset.card_le_card h2
  have h4 := messages.toFinset_card_le
  omega

/-- A one-record session used to instantiate the termination theorem. -/
def soloRecord : RawRecord :=
  { uuid := "u", rtype := "user", parentUuid := none, sessionId := none,
    timestamp := none, message := some (MsgPayload.mstr "hi") }

theorem walk_terminates_witness :
    (∃ k, k ≤ 1 ∧ stepN [soloRecord] k (some soloRecord) = none) ∧
      stepN [soloRecord] 1 (some soloRecord) ≠ some soloRecord :=
  ⟨(walk_terminates [soloRecord] soloRecord (by decide) (by decide)
      (by decide) (by decide)).1,
   (walk_terminates [soloRecord] soloRecord (by decide) (by decide)
      (by decide) (by decide)).2 0 1 soloRecord (by omega) rfl⟩

end Secular
